import Mathlib

/-!
A shallow embedding of `timeline.py` (python-eol-timeline): the interval-derivation
and row-building algorithm that turns per-version Python release milestone dates
into labeled timeline bars and rows.

Modelling conventions:
* Calendar dates (`datetime.date`) are modelled as natural numbers; any
  order-embedding of dates works, and concrete inputs use the readable
  `YYYYMMDD` encoding (e.g. `20250601` for 2025-06-01).  `datetime.date.today()`
  is passed in as an explicit `today` parameter.
* A version's TOML table (`vdata`) is a `VRecord` of optional dates; `vdata[k]`
  on a missing key is a `KeyError`, modelled in the `Except PyError` monad.
  The `assert max_eol is not None` statement is an `AssertionError`.
* The TOML document `data` is an association list from source name (e.g.
  "upstream") to an association list from version string to `VRecord`.
* Output to the file is modelled as the list of rows `print_row` would print.
* `sorted(versions, key=version_key)` is modelled by a stable insertion sort
  keyed by `version_key`; Python's sort is also stable, so the two agree on
  every input (`int(x)` raising on a non-numeric component is not modelled:
  malformed components map to 0, and no claim concerns them).
-/

namespace Timeline

/-- Dates as naturals (see module docstring). -/
abbrev Date := Nat

/-- A bar as built in `generate_timeline`: `(label, start_date)`. -/
abbrev Bar := String × Date

/-- A printed row: `(row_label, phase_label, start_date, end_date)`. -/
abbrev Row := String × String × Date × Date

/-- A version's milestone table under `"upstream"`: every key may be absent. -/
structure VRecord where
  dev : Option Date := none
  alpha1 : Option Date := none
  beta1 : Option Date := none
  rc1 : Option Date := none
  final : Option Date := none
  last_bugfix : Option Date := none
  eol : Option Date := none
deriving Repr, DecidableEq

/-- The fatal errors the script can raise while building bars. -/
inductive PyError where
  | keyError (key : String)
  | assertionError
deriving Repr, DecidableEq

/-- `vdata[key]`: a missing key raises `KeyError(key)`. -/
def getKey (key : String) : Option Date → Except PyError Date
  | some d => .ok d
  | none => .error (.keyError key)

/-- `print_row(row_label, bars, f)` (timeline.py:82-92): emits one row per
consecutive pair of bars, labeled with the earlier bar's label, spanning from
the earlier bar's date to the later bar's date. -/
def print_row (rowLabel : String) : List Bar → List Row
  | b1 :: b2 :: rest => (rowLabel, b1.1, b1.2, b2.2) :: print_row rowLabel (b2 :: rest)
  | _ => []

/-- `version.split(".")` over the character list: split on `'.'`, keeping
empty groups, exactly as Python's `str.split` with an explicit separator. -/
def splitDots : List Char → List (List Char)
  | [] => [[]]
  | c :: rest =>
    if c = '.' then [] :: splitDots rest
    else match splitDots rest with
      | [] => [[c]]
      | g :: gs => (c :: g) :: gs

/-- `int(x)` on a string of decimal digits.  (`int` raising `ValueError` on a
non-numeric component is not modelled; no claim concerns such input.) -/
def parseNat (cs : List Char) : Nat :=
  cs.foldl (fun acc c => acc * 10 + (c.toNat - 48)) 0

/-- `version_key(version)` (timeline.py:95-96): the tuple of integer components
of the dot-separated version string. -/
def version_key (version : String) : List Nat :=
  (splitDots version.toList).map parseNat

/-- Python `<=` on integer tuples: lexicographic, shorter prefixes first. -/
def keyLe : List Nat → List Nat → Bool
  | [], _ => true
  | _ :: _, [] => false
  | a :: as, b :: bs => a < b || (a == b && keyLe as bs)

/-- Python `<` on integer tuples: lexicographic, strict. -/
def keyLt : List Nat → List Nat → Bool
  | [], [] => false
  | [], _ :: _ => true
  | _ :: _, [] => false
  | a :: as, b :: bs => a < b || (a == b && keyLt as bs)

/-- The comparison `version_key(a) <= version_key(b)` used by the sort. -/
def vKeyLe (a b : String) : Prop := keyLe (version_key a) (version_key b) = true

instance : DecidableRel vKeyLe := fun a b =>
  instDecidableEqBool (keyLe (version_key a) (version_key b)) true

/-- `sorted(versions, key=version_key)` (timeline.py:128): a stable sort by
the numeric component tuple. -/
def sortVersions (versions : List String) : List String :=
  List.insertionSort vKeyLe versions

/-- The skip test of timeline.py:132: in current-only mode (`eol = False` in
the script, `eolMode = false` here), a version whose record has an `eol` date
on or before today is skipped. -/
def shouldSkip (eolMode : Bool) (today : Date) (vdata : VRecord) : Bool :=
  !eolMode && (match vdata.eol with
    | some e => decide (e ≤ today)
    | none => false)

/-- Lines 134-147 of timeline.py: build the bar list for one version record:
optional `dev` bar, the four mandatory milestone bars (a missing key raises
`KeyError`), optional `security` bar, and the `eol` bar when `eol` is present
and differs from `last-bugfix` (looking up `last-bugfix` whenever `eol` is
present, so `eol` without `last-bugfix` raises `KeyError("last-bugfix")`). -/
def buildBars (vdata : VRecord) : Except PyError (List Bar) := do
  let devBars : List Bar := match vdata.dev with
    | some d => [("dev", d)]
    | none => []
  let a ← getKey "alpha1" vdata.alpha1
  let b ← getKey "beta1" vdata.beta1
  let r ← getKey "rc1" vdata.rc1
  let s ← getKey "final" vdata.final
  let bars := devBars ++ [("α", a), ("β", b), ("rc", r), ("stable", s)]
  let bars := bars ++ (match vdata.last_bugfix with
    | some d => [("security", d)]
    | none => [])
  match vdata.eol with
  | none => pure bars
  | some e => do
      let lb ← getKey "last-bugfix" vdata.last_bugfix
      pure (if e ≠ lb then bars ++ [("eol", e)] else bars)

/-- `bars[-1][1]`: the date of the last bar (the bar list is never empty where
this is used, so the default is irrelevant). -/
def lastDate (bars : List Bar) : Date :=
  (bars.getLastD ("", 0)).2

/-- Lines 130-156 of timeline.py for a single version record found under
`"upstream"`: returns `none` (and the unchanged accumulator) when the version
is skipped, or the version's bar list together with the updated `max_eol`
accumulator.  A version with an `eol` field updates `max_eol` with the last
bar's date; a version without one requires `max_eol` to be set
(`AssertionError` otherwise) and gets a terminal `("future", max_eol)` bar. -/
def processVersion (eolMode : Bool) (today : Date) (maxEol : Option Date)
    (vdata : VRecord) : Except PyError (Option (List Bar) × Option Date) :=
  if shouldSkip eolMode today vdata then .ok (none, maxEol)
  else do
    let bars ← buildBars vdata
    match vdata.eol with
    | some _ =>
        let d := lastDate bars
        let m : Date := match maxEol with
          | none => d
          | some m0 => max m0 d
        pure (some bars, some m)
    | none =>
        match maxEol with
        | none => .error .assertionError
        | some m => pure (some (bars ++ [("future", m)]), maxEol)

/-- `data.get("upstream", {}).get(version)` (timeline.py:129): dictionary
lookup in the upstream table, modelled on the association list. -/
def lookupVersion (upstream : List (String × VRecord)) (v : String) : Option VRecord :=
  (upstream.find? (fun p => p.1 == v)).map Prod.snd

/-- The per-pass loop of timeline.py:128-156 over an (already sorted) version
list, threading the `max_eol` accumulator: versions absent from the upstream
table are skipped; each processed version contributes `(version, bars)` (the
entry appended to `all_rows`, whose row label is the version itself).  Returns
the collected entries in iteration order together with the final accumulator. -/
def runPass (eolMode : Bool) (today : Date) (upstream : List (String × VRecord)) :
    List String → Option Date → Except PyError (List (String × List Bar) × Option Date)
  | [], maxEol => .ok ([], maxEol)
  | v :: rest, maxEol =>
    match lookupVersion upstream v with
    | none => runPass eolMode today upstream rest maxEol
    | some vdata => do
        let (obars, maxEol') ← processVersion eolMode today maxEol vdata
        let (tail, maxEol'') ← runPass eolMode today upstream rest maxEol'
        match obars with
        | none => pure (tail, maxEol'')
        | some bars => pure ((v, bars) :: tail, maxEol'')

/-- The parsed TOML document: source name → (version → record). -/
abbrev Data := List (String × List (String × VRecord))

/-- `frozenset(itertools.chain.from_iterable(data.values()))` (timeline.py:127):
the deduplicated version strings appearing in any source table. -/
def versionsOf (data : Data) : List String :=
  (data.map (fun p => p.2.map Prod.fst)).flatten.dedup

/-- `data.get("upstream", {})` (timeline.py:129). -/
def dataUpstream (data : Data) : List (String × VRecord) :=
  ((data.find? (fun p => p.1 == "upstream")).map Prod.snd).getD []

/-- One generation pass of `generate_timeline` (timeline.py:112-165), reduced
to its computational content: the ordered `(version, bars)` entries.  The
`max_eol` accumulator starts unset (`None`, line 125). -/
def generate_timeline (eolMode : Bool) (today : Date) (data : Data) :
    Except PyError (List (String × List Bar)) :=
  (runPass eolMode today (dataUpstream data) (sortVersions (versionsOf data)) none).map
    Prod.fst

/-- The rows actually printed by the second loop (timeline.py:158-160). -/
def generate_rows (eolMode : Bool) (today : Date) (data : Data) :
    Except PyError (List Row) :=
  (generate_timeline eolMode today data).map
    (fun entries => (entries.map (fun p => print_row p.1 p.2)).flatten)

/-- One step of the `max_eol` update: `d` when the accumulator is unset,
`max(max_eol, d)` otherwise (timeline.py:148-152). -/
def updMax (acc : Option Date) (d : Date) : Option Date :=
  some (match acc with
    | none => d
    | some m => max m d)

/-- The `max_eol` accumulator after folding a list of eol dates, starting
from `acc`. -/
def foldMax (acc : Option Date) (l : List Date) : Option Date :=
  l.foldl updMax acc

/-- The eol dates of the versions of `l` that a pass actually processes: those
found in the upstream table, not skipped, and carrying an `eol` field. -/
def eolDatesOf (eolMode : Bool) (today : Date) (upstream : List (String × VRecord))
    (l : List String) : List Date :=
  l.filterMap fun v => (lookupVersion upstream v).bind fun vd =>
    if shouldSkip eolMode today vd then none else vd.eol

/-- Concrete record for the spec §8 example: Python 3.9, full record with
`eol = 2025-06-01` and `last-bugfix = 2024-01-01`. -/
def exRec39 : VRecord :=
  { alpha1 := some 20191119, beta1 := some 20200518, rc1 := some 20200811,
    final := some 20201005, last_bugfix := some 20240101, eol := some 20250601 }

/-- Concrete record for the spec §8 example: Python 3.10, full record with
`last-bugfix` but no `eol`. -/
def exRec310 : VRecord :=
  { alpha1 := some 20201005, beta1 := some 20210503, rc1 := some 20210802,
    final := some 20211004, last_bugfix := some 20250101 }

/-- The spec §8 example document: exactly versions 3.9 and 3.10. -/
def exData : Data := [("upstream", [("3.9", exRec39), ("3.10", exRec310)])]

/-- The bars the script derives for `exRec39` (checked by `rfl` below). -/
def exBars39 : List Bar :=
  [("α", 20191119), ("β", 20200518), ("rc", 20200811), ("stable", 20201005),
   ("security", 20240101), ("eol", 20250601)]

/-- The bars the script derives for `exRec310` once `max_eol = 2025-06-01`
(checked by `rfl` below). -/
def exBars310 : List Bar :=
  [("α", 20201005), ("β", 20210503), ("rc", 20210802), ("stable", 20211004),
   ("security", 20250101), ("future", 20250601)]

/-- A record with an `eol` field but none of the required milestones. -/
def exRecMissing : VRecord := { last_bugfix := some 5, eol := some 5 }

/-- A document whose only version has an `eol` field but is missing every
required milestone. -/
def exDataMissing : Data := [("upstream", [("3.8", exRecMissing)])]

/-- The bars of one version before the `eol`/`future` handling: optional
`dev` bar, the four mandatory milestone bars, optional `security` bar.  Used
as the normal form of `buildBars` in proofs. -/
def baseBars (dev : Option Date) (a b r s : Date) (lb : Option Date) : List Bar :=
  (match dev with
    | some d => [("dev", d)]
    | none => []) ++
  [("α", a), ("β", b), ("rc", r), ("stable", s)] ++
  (match lb with
    | some d => [("security", d)]
    | none => [])

/-! ## Normal forms for the embedded functions -/

theorem except_bind_ok {ε α β : Type} (a : α) (f : α → Except ε β) :
    (Except.ok a >>= f : Except ε β) = f a := rfl

theorem except_bind_error {ε α β : Type} (e : ε) (f : α → Except ε β) :
    (Except.error e >>= f : Except ε β) = Except.error e := rfl

theorem except_pure {ε α : Type} (a : α) : (pure a : Except ε α) = Except.ok a := rfl

theorem buildBars_eq (vd : VRecord) :
    buildBars vd =
      match vd.alpha1, vd.beta1, vd.rc1, vd.final with
      | none, _, _, _ => .error (.keyError "alpha1")
      | some _, none, _, _ => .error (.keyError "beta1")
      | some _, some _, none, _ => .error (.keyError "rc1")
      | some _, some _, some _, none => .error (.keyError "final")
      | some a, some b, some r, some s =>
        match vd.eol, vd.last_bugfix with
        | none, _ => .ok (baseBars vd.dev a b r s vd.last_bugfix)
        | some _, none => .error (.keyError "last-bugfix")
        | some e, some lb =>
          .ok (if e ≠ lb then baseBars vd.dev a b r s vd.last_bugfix ++ [("eol", e)]
               else baseBars vd.dev a b r s vd.last_bugfix) := by
  rcases vd with ⟨dev, a1, b1, r1, fn, lb, eo⟩
  cases a1 <;> cases b1 <;> cases r1 <;> cases fn <;> cases eo <;> cases lb <;> rfl

theorem processVersion_eq (em : Bool) (t : Date) (st : Option Date) (vd : VRecord) :
    processVersion em t st vd =
      if shouldSkip em t vd then .ok (none, st)
      else
        match buildBars vd with
        | .error e => .error e
        | .ok bars =>
          match vd.eol with
          | some _ => .ok (some bars, updMax st (lastDate bars))
          | none =>
            match st with
            | none => .error .assertionError
            | some m => .ok (some (bars ++ [("future", m)]), st) := by
  unfold processVersion
  cases shouldSkip em t vd
  · simp only [Bool.false_eq_true, if_false]
    cases h : buildBars vd with
    | error e => simp only [h]; rfl
    | ok bars =>
      simp only [h]
      cases vd.eol <;> cases st <;> rfl
  · rfl

theorem runPass_cons (em : Bool) (t : Date) (u : List (String × VRecord)) (v : String)
    (rest : List String) (st : Option Date) :
    runPass em t u (v :: rest) st =
      match lookupVersion u v with
      | none => runPass em t u rest st
      | some vd =>
        match processVersion em t st vd with
        | .error e => .error e
        | .ok (obars, st₁) =>
          match runPass em t u rest st₁ with
          | .error e => .error e
          | .ok (tail, st₂) =>
            match obars with
            | none => .ok (tail, st₂)
            | some bars => .ok ((v, bars) :: tail, st₂) := by
  conv_lhs => rw [runPass]
  cases hl : lookupVersion u v with
  | none => rfl
  | some vd =>
    cases hp : processVersion em t st vd with
    | error e => simp [hp, except_bind_error]
    | ok p =>
      obtain ⟨obars, st₁⟩ := p
      cases hr : runPass em t u rest st₁ with
      | error e => simp [hp, hr, except_bind_ok, except_bind_error]
      | ok q =>
        obtain ⟨tail, st₂⟩ := q
        cases obars <;> simp [hp, hr, except_bind_ok, except_pure]

theorem runPass_cons_none {em : Bool} {t : Date} {u : List (String × VRecord)}
    {v : String} {rest : List String} {st : Option Date}
    (hl : lookupVersion u v = none) :
    runPass em t u (v :: rest) st = runPass em t u rest st := by
  rw [runPass_cons, hl]

theorem runPass_cons_error {em : Bool} {t : Date} {u : List (String × VRecord)}
    {v : String} {rest : List String} {st : Option Date} {vd : VRecord} {e : PyError}
    (hl : lookupVersion u v = some vd) (hp : processVersion em t st vd = .error e) :
    runPass em t u (v :: rest) st = .error e := by
  rw [runPass_cons, hl]
  simp [hp]

theorem runPass_cons_ok {em : Bool} {t : Date} {u : List (String × VRecord)}
    {v : String} {rest : List String} {st : Option Date} {vd : VRecord}
    {ob : Option (List Bar)} {st₁ : Option Date}
    (hl : lookupVersion u v = some vd)
    (hp : processVersion em t st vd = .ok (ob, st₁)) :
    runPass em t u (v :: rest) st =
      match runPass em t u rest st₁ with
      | .error e => .error e
      | .ok (tail, st₂) =>
        match ob with
        | none => .ok (tail, st₂)
        | some bars => .ok ((v, bars) :: tail, st₂) := by
  rw [runPass_cons, hl]
  cases hr : runPass em t u rest st₁ with
  | error e => simp [hp, hr]
  | ok q =>
    obtain ⟨tail, st₂⟩ := q
    cases ob <;> simp [hp, hr]

/-! ## Properties of `buildBars` -/

theorem baseBars_all_labels (dev lb : Option Date) (a b r s : Date) :
    (baseBars dev a b r s lb).all
      (fun x => x.1 != "eol" && x.1 != "future") = true := by
  cases dev <;> cases lb <;> rfl

theorem baseBars_not_eol_future {dev lb : Option Date} {a b r s : Date} {x : Bar}
    (hx : x ∈ baseBars dev a b r s lb) : x.1 ≠ "eol" ∧ x.1 ≠ "future" := by
  have hall := baseBars_all_labels dev lb a b r s
  rw [List.all_eq_true] at hall
  have hx2 := hall x hx
  simpa using hx2

theorem baseBars_length_ge (dev lb : Option Date) (a b r s : Date) :
    4 ≤ (baseBars dev a b r s lb).length := by
  cases dev <;> cases lb <;> simp [baseBars]

theorem baseBars_length_ge5 (dev : Option Date) (a b r s l : Date) :
    5 ≤ (baseBars dev a b r s (some l)).length := by
  cases dev <;> simp [baseBars]

theorem baseBars_lastDate_security (dev : Option Date) (a b r s l : Date) :
    lastDate (baseBars dev a b r s (some l)) = l := by
  cases dev <;> rfl

theorem baseBars_getLast_security (dev : Option Date) (a b r s l : Date) :
    (baseBars dev a b r s (some l)).getLast? = some ("security", l) := by
  cases dev <;> rfl

/-- The complete case analysis of a successful `buildBars` run: the four
milestones are present, and the bar list is the base bars, extended by an
`eol` bar exactly when `eol` is present and differs from `last-bugfix`. -/
theorem buildBars_ok_shape {vd : VRecord} {bars : List Bar}
    (h : buildBars vd = .ok bars) :
    ∃ a b r s, vd.alpha1 = some a ∧ vd.beta1 = some b ∧ vd.rc1 = some r ∧
      vd.final = some s ∧
      ((vd.eol = none ∧ bars = baseBars vd.dev a b r s vd.last_bugfix) ∨
       (∃ e l, vd.eol = some e ∧ vd.last_bugfix = some l ∧
         ((e ≠ l ∧ bars = baseBars vd.dev a b r s vd.last_bugfix ++ [("eol", e)]) ∨
          (e = l ∧ bars = baseBars vd.dev a b r s vd.last_bugfix)))) := by
  rcases vd with ⟨dev, a1, b1, r1, fn, lb, eo⟩
  rw [buildBars_eq] at h
  cases a1 with
  | none => exact absurd h (by simp)
  | some a =>
  cases b1 with
  | none => exact absurd h (by simp)
  | some b =>
  cases r1 with
  | none => exact absurd h (by simp)
  | some r =>
  cases fn with
  | none => exact absurd h (by simp)
  | some s =>
  cases eo with
  | none =>
    refine ⟨a, b, r, s, rfl, rfl, rfl, rfl, Or.inl ⟨rfl, ?_⟩⟩
    exact (Except.ok.inj h).symm
  | some e =>
    cases lb with
    | none => exact absurd h (by simp)
    | some l =>
      by_cases hel : e = l
      · subst hel
        refine ⟨a, b, r, s, rfl, rfl, rfl, rfl,
          Or.inr ⟨e, e, rfl, rfl, Or.inr ⟨rfl, ?_⟩⟩⟩
        have h2 := Except.ok.inj h
        simpa using h2.symm
      · refine ⟨a, b, r, s, rfl, rfl, rfl, rfl,
          Or.inr ⟨e, l, rfl, rfl, Or.inl ⟨hel, ?_⟩⟩⟩
        have h2 := Except.ok.inj h
        rw [if_pos hel] at h2
        exact h2.symm

theorem buildBars_length {vd : VRecord} {bars : List Bar}
    (h : buildBars vd = .ok bars) :
    4 ≤ bars.length ∧ (vd.eol.isSome = true → 5 ≤ bars.length) := by
  obtain ⟨a, b, r, s, _, _, _, _, hc⟩ := buildBars_ok_shape h
  rcases hc with ⟨heo, rfl⟩ | ⟨e, l, heo, hlb, hc⟩
  · refine ⟨baseBars_length_ge _ _ _ _ _ _, fun hs => ?_⟩
    rw [heo] at hs
    simp at hs
  · rw [hlb] at hc
    have h5 := baseBars_length_ge5 vd.dev a b r s l
    rcases hc with ⟨_, rfl⟩ | ⟨_, rfl⟩
    · simp only [List.length_append, List.length_cons, List.length_nil]
      omega
    · exact ⟨by omega, fun _ => h5⟩

theorem buildBars_lastDate {vd : VRecord} {bars : List Bar} {e : Date}
    (h : buildBars vd = .ok bars) (he : vd.eol = some e) :
    lastDate bars = e := by
  obtain ⟨a, b, r, s, _, _, _, _, hc⟩ := buildBars_ok_shape h
  rcases hc with ⟨heo, rfl⟩ | ⟨e', l, heo, hlb, hc⟩
  · rw [heo] at he
    exact absurd he (by simp)
  · rw [heo] at he
    obtain rfl : e' = e := by simpa using he
    rw [hlb] at hc
    rcases hc with ⟨_, rfl⟩ | ⟨hel, rfl⟩
    · simp [lastDate, List.getLastD_concat]
    · rw [baseBars_lastDate_security, hel]

theorem buildBars_mem_eol {vd : VRecord} {bars : List Bar}
    (h : buildBars vd = .ok bars) (d : Date) :
    (("eol", d) ∈ bars) ↔ (vd.eol = some d ∧ vd.eol ≠ vd.last_bugfix) := by
  obtain ⟨a, b, r, s, _, _, _, _, hc⟩ := buildBars_ok_shape h
  rcases hc with ⟨heo, rfl⟩ | ⟨e, l, heo, hlb, hc⟩
  · rw [heo]
    constructor
    · intro hmem
      exact absurd rfl (baseBars_not_eol_future hmem).1
    · intro hcl
      exact absurd hcl.1 (by simp)
  · rw [heo, hlb]
    rcases hc with ⟨hel, rfl⟩ | ⟨hel, rfl⟩
    · constructor
      · intro hmem
        rcases List.mem_append.mp hmem with hb | hb
        · exact absurd rfl (baseBars_not_eol_future hb).1
        · have hd : d = e := by simpa using hb
          subst hd
          exact ⟨rfl, by simpa using hel⟩
      · rintro ⟨hde, -⟩
        obtain rfl : e = d := by simpa using hde
        exact List.mem_append.mpr (Or.inr (by simp))
    · subst hel
      constructor
      · intro hmem
        exact absurd rfl (baseBars_not_eol_future hmem).1
      · rintro ⟨-, hne⟩
        exact absurd rfl hne

theorem buildBars_eol_needs_bugfix {vd : VRecord} {a b r s e : Date}
    (ha : vd.alpha1 = some a) (hb : vd.beta1 = some b) (hr : vd.rc1 = some r)
    (hs : vd.final = some s) (he : vd.eol = some e) (hl : vd.last_bugfix = none) :
    buildBars vd = .error (.keyError "last-bugfix") := by
  rw [buildBars_eq, ha, hb, hr, hs, he, hl]

theorem buildBars_missing_milestone {vd : VRecord}
    (h : vd.alpha1 = none ∨ vd.beta1 = none ∨ vd.rc1 = none ∨ vd.final = none) :
    ∃ k, buildBars vd = .error (.keyError k) := by
  rcases vd with ⟨dev, a1, b1, r1, fn, lb, eo⟩
  simp only at h
  rw [buildBars_eq]
  cases a1 with
  | none => exact ⟨"alpha1", rfl⟩
  | some a =>
  cases b1 with
  | none => exact ⟨"beta1", rfl⟩
  | some b =>
  cases r1 with
  | none => exact ⟨"rc1", rfl⟩
  | some r =>
  cases fn with
  | none => exact ⟨"final", rfl⟩
  | some s => simp at h

/-! ## Properties of `processVersion` and `runPass` -/

/-- Complete case analysis of a successful `processVersion` step. -/
theorem processVersion_state {em : Bool} {t : Date} {st : Option Date} {vd : VRecord}
    {ob : Option (List Bar)} {st' : Option Date}
    (h : processVersion em t st vd = .ok (ob, st')) :
    (shouldSkip em t vd = true ∧ ob = none ∧ st' = st) ∨
    (shouldSkip em t vd = false ∧ ∃ bars, buildBars vd = .ok bars ∧
      ((∃ e, vd.eol = some e ∧ ob = some bars ∧ st' = updMax st e) ∨
       (vd.eol = none ∧ ∃ m, st = some m ∧ ob = some (bars ++ [("future", m)]) ∧
         st' = st))) := by
  rw [processVersion_eq] at h
  cases hs : shouldSkip em t vd with
  | true =>
    rw [hs, if_pos rfl] at h
    obtain ⟨rfl, rfl⟩ : none = ob ∧ st = st' := by
      constructor <;> [exact congrArg Prod.fst (Except.ok.inj h);
        exact congrArg Prod.snd (Except.ok.inj h)]
    exact Or.inl ⟨rfl, rfl, rfl⟩
  | false =>
    rw [hs] at h
    simp only [Bool.false_eq_true, if_false] at h
    cases hb : buildBars vd with
    | error e => rw [hb] at h; exact absurd h (by simp)
    | ok bars =>
      rw [hb] at h
      refine Or.inr ⟨rfl, bars, rfl, ?_⟩
      cases heo : vd.eol with
      | some e =>
        rw [heo] at h
        have h2 := Except.ok.inj h
        injection h2 with h3 h4
        refine Or.inl ⟨e, rfl, h3.symm, ?_⟩
        rw [← h4, buildBars_lastDate hb heo]
      | none =>
        rw [heo] at h
        cases hst : st with
        | none => rw [hst] at h; exact absurd h (by simp)
        | some m =>
          rw [hst] at h
          have h2 := Except.ok.inj h
          injection h2 with h3 h4
          exact Or.inr ⟨rfl, m, rfl, h3.symm, by rw [← h4]⟩

/-- The final `max_eol` accumulator of a pass folds the eol dates of the
processed versions over the initial accumulator. -/
theorem runPass_state {em : Bool} {t : Date} {u : List (String × VRecord)} :
    ∀ {l : List String} {st : Option Date} {rows : List (String × List Bar)}
      {st' : Option Date}, runPass em t u l st = .ok (rows, st') →
      st' = foldMax st (eolDatesOf em t u l) := by
  intro l
  induction l with
  | nil =>
    intro st rows st' h
    obtain ⟨-, rfl⟩ : [] = rows ∧ st = st' := by
      constructor <;> [exact congrArg Prod.fst (Except.ok.inj h);
        exact congrArg Prod.snd (Except.ok.inj h)]
    rfl
  | cons v rest ih =>
    intro st rows st' h
    cases hl : lookupVersion u v with
    | none =>
      rw [runPass_cons_none hl] at h
      have hd : eolDatesOf em t u (v :: rest) = eolDatesOf em t u rest := by
        simp [eolDatesOf, List.filterMap_cons, hl]
      rw [hd]
      exact ih h
    | some vd =>
      cases hp : processVersion em t st vd with
      | error e =>
        rw [runPass_cons_error hl hp] at h
        exact absurd h (by simp)
      | ok p =>
        obtain ⟨ob, st₁⟩ := p
        rw [runPass_cons_ok hl hp] at h
        cases hr : runPass em t u rest st₁ with
        | error e => rw [hr] at h; exact absurd h (by simp)
        | ok q =>
          obtain ⟨tail, st₂⟩ := q
          rw [hr] at h
          have hst2 : st' = st₂ := by
            cases ob with
            | none =>
              have h2 : (Except.ok (tail, st₂) : Except PyError _) = .ok (rows, st') := h
              injection Except.ok.inj h2 with h3 h4
              exact h4.symm
            | some bars =>
              have h2 : (Except.ok ((v, bars) :: tail, st₂) : Except PyError _) =
                  .ok (rows, st') := h
              injection Except.ok.inj h2 with h3 h4
              exact h4.symm
          rcases processVersion_state hp with ⟨hs, -, rfl⟩ |
            ⟨hs, bars, hb, ⟨e, heo, -, rfl⟩ | ⟨heo, m, -, -, rfl⟩⟩
          · have hd : eolDatesOf em t u (v :: rest) = eolDatesOf em t u rest := by
              simp [eolDatesOf, List.filterMap_cons, hl, hs]
            rw [hd, hst2]
            exact ih hr
          · have hd : eolDatesOf em t u (v :: rest) = e :: eolDatesOf em t u rest := by
              simp [eolDatesOf, List.filterMap_cons, hl, hs, heo]
            rw [hd, hst2]
            exact ih hr
          · have hd : eolDatesOf em t u (v :: rest) = eolDatesOf em t u rest := by
              simp [eolDatesOf, List.filterMap_cons, hl, hs, heo]
            rw [hd, hst2]
            exact ih hr

theorem runPass_nil {em : Bool} {t : Date} {u : List (String × VRecord)}
    {st : Option Date} {rows : List (String × List Bar)} {st' : Option Date}
    (h : runPass em t u [] st = .ok (rows, st')) : rows = [] ∧ st' = st := by
  have h2 : (Except.ok ([], st) : Except PyError _) = .ok (rows, st') := h
  injection Except.ok.inj h2 with h3 h4
  exact ⟨h3.symm, h4.symm⟩

/-- Inversion of a successful `runPass` step on a cons cell. -/
theorem runPass_cons_inv {em : Bool} {t : Date} {u : List (String × VRecord)}
    {v : String} {rest : List String} {st : Option Date}
    {rows : List (String × List Bar)} {st' : Option Date}
    (h : runPass em t u (v :: rest) st = .ok (rows, st')) :
    (lookupVersion u v = none ∧ runPass em t u rest st = .ok (rows, st')) ∨
    (∃ vd st₁, lookupVersion u v = some vd ∧
      ((processVersion em t st vd = .ok (none, st₁) ∧
        runPass em t u rest st₁ = .ok (rows, st')) ∨
       (∃ bars tail, processVersion em t st vd = .ok (some bars, st₁) ∧
        runPass em t u rest st₁ = .ok (tail, st') ∧ rows = (v, bars) :: tail))) := by
  cases hl : lookupVersion u v with
  | none => exact Or.inl ⟨rfl, by rwa [runPass_cons_none hl] at h⟩
  | some vd =>
    cases hp : processVersion em t st vd with
    | error e =>
      rw [runPass_cons_error hl hp] at h
      exact absurd h (by simp)
    | ok p =>
      obtain ⟨ob, st₁⟩ := p
      rw [runPass_cons_ok hl hp] at h
      cases hr : runPass em t u rest st₁ with
      | error e => rw [hr] at h; exact absurd h (by simp)
      | ok q =>
        obtain ⟨tail, st₂⟩ := q
        rw [hr] at h
        cases ob with
        | none =>
          have h2 : (Except.ok (tail, st₂) : Except PyError _) = .ok (rows, st') := h
          injection Except.ok.inj h2 with h3 h4
          subst h3; subst h4
          exact Or.inr ⟨vd, st₁, rfl, Or.inl ⟨hp, hr⟩⟩
        | some bars =>
          have h2 : (Except.ok ((v, bars) :: tail, st₂) : Except PyError _) =
            .ok (rows, st') := h
          injection Except.ok.inj h2 with h3 h4
          subst h4
          exact Or.inr ⟨vd, st₁, rfl, Or.inr ⟨bars, tail, hp, hr, h3.symm⟩⟩

theorem buildBars_error_keyError {vd : VRecord} {e : PyError}
    (h : buildBars vd = .error e) : ∃ k, e = .keyError k := by
  rcases vd with ⟨dev, a1, b1, r1, fn, lb, eo⟩
  rw [buildBars_eq] at h
  cases a1 with
  | none => exact ⟨"alpha1", (Except.error.inj h).symm⟩
  | some a =>
  cases b1 with
  | none => exact ⟨"beta1", (Except.error.inj h).symm⟩
  | some b =>
  cases r1 with
  | none => exact ⟨"rc1", (Except.error.inj h).symm⟩
  | some r =>
  cases fn with
  | none => exact ⟨"final", (Except.error.inj h).symm⟩
  | some s =>
  cases eo with
  | none => exact absurd h (by simp)
  | some e' =>
    cases lb with
    | none =>
      exact ⟨"last-bugfix", (Except.error.inj h).symm⟩
    | some l => exact absurd h (by simp)

/-- A `processVersion` error is either a `KeyError` from bar construction or
the `AssertionError` of the future-bar precondition (unset accumulator on a
non-skipped version without `eol`). -/
theorem processVersion_error_inv {em : Bool} {t : Date} {st : Option Date}
    {vd : VRecord} {e : PyError} (h : processVersion em t st vd = .error e) :
    (∃ k, e = .keyError k) ∨
    (e = .assertionError ∧ vd.eol = none ∧ st = none ∧
      shouldSkip em t vd = false) := by
  rw [processVersion_eq] at h
  cases hs : shouldSkip em t vd with
  | true => rw [hs, if_pos rfl] at h; exact absurd h (by simp)
  | false =>
    rw [hs] at h
    simp only [Bool.false_eq_true, if_false] at h
    cases hb : buildBars vd with
    | error e' =>
      rw [hb] at h
      have h2 : (Except.error e' : Except PyError (Option (List Bar) × Option Date)) =
        .error e := h
      obtain rfl : e' = e := Except.error.inj h2
      exact Or.inl (buildBars_error_keyError hb)
    | ok bars =>
      rw [hb] at h
      cases heo : vd.eol with
      | some e' => rw [heo] at h; exact absurd h (by simp)
      | none =>
        rw [heo] at h
        cases hst : st with
        | some m => rw [hst] at h; exact absurd h (by simp)
        | none =>
          rw [hst] at h
          have h2 : (Except.error PyError.assertionError :
            Except PyError (Option (List Bar) × Option Date)) = .error e := h
          exact Or.inr ⟨(Except.error.inj h2).symm, rfl, rfl, rfl⟩

/-- A non-skipped version missing one of the four required milestones makes
`processVersion` fail with a `KeyError`. -/
theorem processVersion_missing {em : Bool} {t : Date} {st : Option Date}
    {vd : VRecord} (hs : shouldSkip em t vd = false)
    (hm : vd.alpha1 = none ∨ vd.beta1 = none ∨ vd.rc1 = none ∨ vd.final = none) :
    ∃ k, processVersion em t st vd = .error (.keyError k) := by
  obtain ⟨k, hb⟩ := buildBars_missing_milestone hm
  refine ⟨k, ?_⟩
  rw [processVersion_eq, hs]
  simp [hb]

/-- The version labels emitted by a pass form a sublist of the iterated
version list. -/
theorem runPass_fst_sublist {em : Bool} {t : Date} {u : List (String × VRecord)} :
    ∀ {l : List String} {st : Option Date} {rows : List (String × List Bar)}
      {st' : Option Date}, runPass em t u l st = .ok (rows, st') →
      List.Sublist (rows.map Prod.fst) l := by
  intro l
  induction l with
  | nil =>
    intro st rows st' h
    obtain ⟨rfl, -⟩ := runPass_nil h
    exact List.nil_sublist []
  | cons v rest ih =>
    intro st rows st' h
    rcases runPass_cons_inv h with ⟨-, hrec⟩ |
      ⟨vd, st₁, -, ⟨-, hrec⟩ | ⟨bars, tail, -, hrec, rfl⟩⟩
    · exact (ih hrec).cons v
    · exact (ih hrec).cons v
    · exact List.Sublist.cons₂ v (ih hrec)

/-- Every entry emitted by a pass is the output of a successful
`processVersion` on the record found for its version label. -/
theorem runPass_entries {em : Bool} {t : Date} {u : List (String × VRecord)} :
    ∀ {l : List String} {st : Option Date} {rows : List (String × List Bar)}
      {st' : Option Date}, runPass em t u l st = .ok (rows, st') →
      ∀ p ∈ rows, ∃ vd st₀ st₁, lookupVersion u p.1 = some vd ∧
        processVersion em t st₀ vd = .ok (some p.2, st₁) := by
  intro l
  induction l with
  | nil =>
    intro st rows st' h p hp
    obtain ⟨rfl, -⟩ := runPass_nil h
    exact absurd hp (List.not_mem_nil p)
  | cons v rest ih =>
    intro st rows st' h p hp
    rcases runPass_cons_inv h with ⟨-, hrec⟩ |
      ⟨vd, st₁, hl, ⟨-, hrec⟩ | ⟨bars, tail, hpv, hrec, rfl⟩⟩
    · exact ih hrec p hp
    · exact ih hrec p hp
    · rcases List.mem_cons.mp hp with rfl | hptail
      · exact ⟨vd, st, st₁, hl, hpv⟩
      · exact ih hrec p hptail

/-- In a pass where a version's record satisfies the skip rule, no emitted
entry carries that version's label. -/
theorem runPass_skipped_absent {em : Bool} {t : Date} {u : List (String × VRecord)}
    {v : String} {vd : VRecord} (hv : lookupVersion u v = some vd)
    (hs : shouldSkip em t vd = true) :
    ∀ {l : List String} {st : Option Date} {rows : List (String × List Bar)}
      {st' : Option Date}, runPass em t u l st = .ok (rows, st') →
      ∀ p ∈ rows, p.1 ≠ v := by
  intro l
  induction l with
  | nil =>
    intro st rows st' h p hp
    obtain ⟨rfl, -⟩ := runPass_nil h
    exact absurd hp (List.not_mem_nil p)
  | cons w rest ih =>
    intro st rows st' h p hp
    rcases runPass_cons_inv h with ⟨-, hrec⟩ |
      ⟨wd, st₁, hl, ⟨-, hrec⟩ | ⟨bars, tail, hpw, hrec, rfl⟩⟩
    · exact ih hrec p hp
    · exact ih hrec p hp
    · rcases List.mem_cons.mp hp with rfl | hptail
      · intro hwv
        obtain rfl : w = v := hwv
        rw [hl] at hv
        obtain rfl : wd = vd := Option.some.inj hv
        rcases processVersion_state hpw with ⟨-, hob, -⟩ | ⟨hs2, -⟩
        · exact absurd hob (by simp)
        · rw [hs] at hs2
          exact absurd hs2 (by simp)
      · exact ih hrec p hptail

/-- In a pass where a version's record does not satisfy the skip rule, and the
pass succeeds, the version (if iterated and present upstream) contributes an
entry with at least four bars. -/
theorem runPass_kept {em : Bool} {t : Date} {u : List (String × VRecord)}
    {v : String} {vd : VRecord} (hv : lookupVersion u v = some vd)
    (hs : shouldSkip em t vd = false) :
    ∀ {l : List String} {st : Option Date} {rows : List (String × List Bar)}
      {st' : Option Date}, runPass em t u l st = .ok (rows, st') → v ∈ l →
      ∃ bars, (v, bars) ∈ rows ∧ 4 ≤ bars.length := by
  intro l
  induction l with
  | nil =>
    intro st rows st' h hmem
    exact absurd hmem (List.not_mem_nil v)
  | cons w rest ih =>
    intro st rows st' h hmem
    rcases runPass_cons_inv h with ⟨hl, hrec⟩ |
      ⟨wd, st₁, hl, ⟨hpw, hrec⟩ | ⟨bars, tail, hpw, hrec, rfl⟩⟩
    · rcases List.mem_cons.mp hmem with rfl | hmemr
      · rw [hv] at hl
        exact absurd hl (by simp)
      · exact ih hrec hmemr
    · rcases List.mem_cons.mp hmem with rfl | hmemr
      · rw [hv] at hl
        obtain rfl : wd = vd := (Option.some.inj hl).symm
        rcases processVersion_state hpw with ⟨hs2, -, -⟩ | ⟨-, bars, -, hcase⟩
        · rw [hs] at hs2
          exact absurd hs2 (by simp)
        · rcases hcase with ⟨e, -, hob, -⟩ | ⟨-, m, -, hob, -⟩ <;>
            exact absurd hob (by simp)
      · exact ih hrec hmemr
    · rcases List.mem_cons.mp hmem with rfl | hmemr
      · rw [hv] at hl
        obtain rfl : wd = vd := (Option.some.inj hl).symm
        rcases processVersion_state hpw with ⟨hs2, -, -⟩ | ⟨-, bars', hb, hcase⟩
        · rw [hs] at hs2
          exact absurd hs2 (by simp)
        · rcases hcase with ⟨e, -, hob, -⟩ | ⟨-, m, -, hob, -⟩
          · have hbb : bars = bars' := Option.some.inj hob
            refine ⟨bars, List.mem_cons_self _ _, ?_⟩
            rw [hbb]
            exact (buildBars_length hb).1
          · have hbb : bars = bars' ++ [("future", m)] := Option.some.inj hob
            refine ⟨bars, List.mem_cons_self _ _, ?_⟩
            rw [hbb]
            have h4 := (buildBars_length hb).1
            simp only [List.length_append, List.length_cons, List.length_nil]
            omega
      · obtain ⟨bars2, hmem2, hlen2⟩ := ih hrec hmemr
        exact ⟨bars2, List.mem_cons_of_mem _ hmem2, hlen2⟩

/-- If an iterated version's record is not skipped and is missing a required
milestone, the whole pass aborts with an error. -/
theorem runPass_abort {em : Bool} {t : Date} {u : List (String × VRecord)}
    {v : String} {vd : VRecord} (hv : lookupVersion u v = some vd)
    (hs : shouldSkip em t vd = false)
    (hm : vd.alpha1 = none ∨ vd.beta1 = none ∨ vd.rc1 = none ∨ vd.final = none) :
    ∀ {l : List String}, v ∈ l → ∀ st, ∃ err, runPass em t u l st = .error err := by
  intro l
  induction l with
  | nil => intro hmem; exact absurd hmem (List.not_mem_nil v)
  | cons w rest ih =>
    intro hmem st
    cases hl : lookupVersion u w with
    | none =>
      have hmemr : v ∈ rest := by
        rcases List.mem_cons.mp hmem with rfl | hr
        · rw [hv] at hl; exact absurd hl (by simp)
        · exact hr
      obtain ⟨err, herr⟩ := ih hmemr st
      exact ⟨err, by rw [runPass_cons_none hl, herr]⟩
    | some wd =>
      cases hpw : processVersion em t st wd with
      | error e => exact ⟨e, runPass_cons_error hl hpw⟩
      | ok p =>
        obtain ⟨ob, st₁⟩ := p
        have hmemr : v ∈ rest := by
          rcases List.mem_cons.mp hmem with rfl | hr
          · rw [hv] at hl
            obtain rfl : wd = vd := (Option.some.inj hl).symm
            obtain ⟨k, hk⟩ := @processVersion_missing em t st wd hs hm
            rw [hpw] at hk
            exact absurd hk (by simp)
          · exact hr
        obtain ⟨err, herr⟩ := ih hmemr st₁
        exact ⟨err, by rw [runPass_cons_ok hl hpw, herr]⟩

/-- If, at every version lacking `eol`, the accumulator is already set or some
earlier version of the list has an `eol` field and is not skipped, the pass
never fails with the future-bar `AssertionError`. -/
theorem runPass_no_assert {em : Bool} {t : Date} {u : List (String × VRecord)} :
    ∀ {l : List String} {st : Option Date},
      (∀ l₁ v l₂, l = l₁ ++ v :: l₂ → ∀ vd, lookupVersion u v = some vd →
        vd.eol = none →
        st.isSome = true ∨ ∃ w ∈ l₁, ∃ wd, lookupVersion u w = some wd ∧
          wd.eol.isSome = true ∧ shouldSkip em t wd = false) →
      runPass em t u l st ≠ .error .assertionError := by
  intro l
  induction l with
  | nil =>
    intro st hyp hc
    have h2 : (Except.ok (([] : List (String × List Bar)), st) : Except PyError _) =
      .error .assertionError := hc
    exact absurd h2 (by simp)
  | cons v rest ih =>
    intro st hyp
    cases hl : lookupVersion u v with
    | none =>
      rw [runPass_cons_none hl]
      apply ih
      intro l₁ w l₂ hsplit wd hlw hweo
      rcases hyp (v :: l₁) w l₂ (by rw [hsplit]; rfl) wd hlw hweo with
        hsome | ⟨x, hx, xd, hlx, hxe, hxs⟩
      · exact Or.inl hsome
      · rcases List.mem_cons.mp hx with rfl | hxl
        · rw [hlx] at hl
          exact absurd hl (by simp)
        · exact Or.inr ⟨x, hxl, xd, hlx, hxe, hxs⟩
    | some vd =>
      cases hp : processVersion em t st vd with
      | error e =>
        rw [runPass_cons_error hl hp]
        intro hc
        obtain rfl : e = .assertionError := Except.error.inj hc
        rcases processVersion_error_inv hp with ⟨k, hk⟩ | ⟨-, heo, rfl, -⟩
        · exact absurd hk (by simp)
        · rcases hyp [] v rest rfl vd hl heo with hsome | ⟨w, hw, -⟩
          · exact absurd hsome (by simp)
          · exact absurd hw (List.not_mem_nil w)
      | ok p =>
        obtain ⟨ob, st₁⟩ := p
        rw [runPass_cons_ok hl hp]
        cases hr : runPass em t u rest st₁ with
        | error e2 =>
          intro hc
          have he2 : e2 = .assertionError := Except.error.inj hc
          subst he2
          refine ih ?_ hr
          intro l₁ w l₂ hsplit wd hlw hweo
          rcases processVersion_state hp with ⟨hs, -, rfl⟩ |
            ⟨hs, bars, hb, ⟨e, heo, -, rfl⟩ | ⟨heo, m, hstm, -, rfl⟩⟩
          · rcases hyp (v :: l₁) w l₂ (by rw [hsplit]; rfl) wd hlw hweo with
              hsome | ⟨x, hx, xd, hlx, hxe, hxs⟩
            · exact Or.inl hsome
            · rcases List.mem_cons.mp hx with rfl | hxl
              · rw [hl] at hlx
                obtain rfl : vd = xd := Option.some.inj hlx
                rw [hs] at hxs
                exact absurd hxs (by simp)
              · exact Or.inr ⟨x, hxl, xd, hlx, hxe, hxs⟩
          · exact Or.inl (by simp [updMax])
          · exact Or.inl (by rw [hstm]; rfl)
        | ok q =>
          obtain ⟨tail, st₂⟩ := q
          cases ob with
          | none =>
            intro hc
            have h2 : (Except.ok (tail, st₂) : Except PyError _) =
              .error .assertionError := hc
            exact absurd h2 (by simp)
          | some bars =>
            intro hc
            have h2 : (Except.ok ((v, bars) :: tail, st₂) : Except PyError _) =
              .error .assertionError := hc
            exact absurd h2 (by simp)

/-! ## Properties of `print_row` -/

theorem print_row_length (rl : String) :
    ∀ bars : List Bar, (print_row rl bars).length = bars.length - 1
  | [] => rfl
  | [_] => rfl
  | b1 :: b2 :: rest => by
    have ih := print_row_length rl (b2 :: rest)
    simp only [print_row, List.length_cons] at ih ⊢
    omega

theorem print_row_get (rl : String) :
    ∀ (bars : List Bar) (i : Nat),
      (print_row rl bars)[i]? =
        bars[i]?.bind fun b1 => (bars[i + 1]?).map fun b2 => (rl, b1.1, b1.2, b2.2)
  | [], i => by simp [print_row]
  | [b], i => by cases i <;> simp [print_row]
  | b1 :: b2 :: rest, 0 => by simp [print_row]
  | b1 :: b2 :: rest, i + 1 => by
    have ih := print_row_get rl (b2 :: rest) i
    simp only [print_row, List.getElem?_cons_succ] at ih ⊢
    exact ih

theorem print_row_lt (rl : String) :
    ∀ bars : List Bar, List.Chain' (fun a b : Bar => a.2 < b.2) bars →
      ∀ r ∈ print_row rl bars, r.2.2.1 < r.2.2.2
  | [], _, r, hr => by simp [print_row] at hr
  | [_], _, r, hr => by simp [print_row] at hr
  | b1 :: b2 :: rest, h, r, hr => by
    rw [List.chain'_cons] at h
    rcases List.mem_cons.mp hr with h1 | h2
    · subst h1; exact h.1
    · exact print_row_lt rl (b2 :: rest) h.2 r h2

theorem print_row_label (rl : String) :
    ∀ (bars : List Bar) (r : Row), r ∈ print_row rl bars → r.1 = rl
  | [], r, hr => absurd hr (by simp [print_row])
  | [_], r, hr => absurd hr (by simp [print_row])
  | b1 :: b2 :: rest, r, hr => by
    rcases List.mem_cons.mp hr with rfl | h2
    · rfl
    · exact print_row_label rl (b2 :: rest) r h2

/-! ## Sorting facts -/

theorem keyLe_total : ∀ a b : List Nat, keyLe a b = true ∨ keyLe b a = true
  | [], [] => Or.inl rfl
  | [], _ :: _ => Or.inl rfl
  | _ :: _, [] => Or.inr rfl
  | a :: as, b :: bs => by
    rcases Nat.lt_trichotomy a b with h | h | h
    · left
      simp only [keyLe, Bool.or_eq_true, decide_eq_true_eq]
      exact Or.inl h
    · subst h
      rcases keyLe_total as bs with ih | ih
      · left
        simp only [keyLe, Bool.or_eq_true, Bool.and_eq_true, beq_iff_eq,
          decide_eq_true_eq]
        exact Or.inr ⟨trivial, ih⟩
      · right
        simp only [keyLe, Bool.or_eq_true, Bool.and_eq_true, beq_iff_eq,
          decide_eq_true_eq]
        exact Or.inr ⟨trivial, ih⟩
    · right
      simp only [keyLe, Bool.or_eq_true, decide_eq_true_eq]
      exact Or.inl h

theorem keyLe_trans : ∀ a b c : List Nat, keyLe a b = true → keyLe b c = true →
    keyLe a c = true
  | [], _, _, _, _ => rfl
  | _ :: _, [], _, h, _ => by simp [keyLe] at h
  | _ :: _, _ :: _, [], _, h => by simp [keyLe] at h
  | a :: as, b :: bs, c :: cs, h1, h2 => by
    simp only [keyLe, Bool.or_eq_true, Bool.and_eq_true, beq_iff_eq,
      decide_eq_true_eq] at h1 h2 ⊢
    rcases h1 with h1 | ⟨rfl, h1⟩
    · rcases h2 with h2 | ⟨rfl, h2⟩
      · exact Or.inl (Nat.lt_trans h1 h2)
      · exact Or.inl h1
    · rcases h2 with h2 | ⟨rfl, h2⟩
      · exact Or.inl h2
      · exact Or.inr ⟨rfl, keyLe_trans as bs cs h1 h2⟩

theorem perm_sortVersions (l : List String) : (sortVersions l).Perm l :=
  List.perm_insertionSort vKeyLe l

theorem sorted_sortVersions (l : List String) :
    List.Sorted vKeyLe (sortVersions l) := by
  haveI : IsTotal String vKeyLe :=
    ⟨fun a b => keyLe_total (version_key a) (version_key b)⟩
  haveI : IsTrans String vKeyLe :=
    ⟨fun a b c hab hbc =>
      keyLe_trans (version_key a) (version_key b) (version_key c) hab hbc⟩
  exact List.sorted_insertionSort vKeyLe l

/-! ## The claims -/

/-- **C1**: for a bar list with `N ≥ 2` bars, `print_row` produces exactly
`N - 1` rows; row `i` is labeled with bar `i`'s label, starts at bar `i`'s
date and ends at bar `i+1`'s date (the final bar contributes no row of its
own); fewer than two bars produce zero rows; and when the bar dates are
strictly increasing every row's end date is after its start date. -/
theorem claim_C1 (rl : String) (bars : List Bar) :
    (print_row rl bars).length = bars.length - 1 ∧
    (∀ i, (print_row rl bars)[i]? =
      bars[i]?.bind fun b1 => (bars[i + 1]?).map fun b2 => (rl, b1.1, b1.2, b2.2)) ∧
    (bars.length < 2 → print_row rl bars = []) ∧
    (List.Chain' (fun a b : Bar => a.2 < b.2) bars →
      ∀ r ∈ print_row rl bars, r.2.2.1 < r.2.2.2) := by
  refine ⟨print_row_length rl bars, fun i => print_row_get rl bars i, ?_,
    print_row_lt rl bars⟩
  intro h
  cases bars with
  | nil => rfl
  | cons b t =>
    cases t with
    | nil => rfl
    | cons b2 t2 =>
      simp only [List.length_cons] at h
      exact absurd h (by omega)

/-- Witness for C1 at a concrete three-bar input with strictly increasing
dates. -/
theorem claim_C1_witness :
    List.Chain' (fun a b : Bar => a.2 < b.2) [("α", 1), ("β", 2), ("rc", 3)] ∧
    (("v", "α", 1, 2) : Row).2.2.1 < (("v", "α", 1, 2) : Row).2.2.2 := by
  have hchain : List.Chain' (fun a b : Bar => a.2 < b.2) [("α", 1), ("β", 2), ("rc", 3)] :=
    List.chain'_cons.mpr ⟨by decide,
      List.chain'_cons.mpr ⟨by decide, List.chain'_singleton _⟩⟩
  exact ⟨hchain, (claim_C1 "v" [("α", 1), ("β", 2), ("rc", 3)]).2.2.2 hchain
    ("v", "α", 1, 2) (by decide)⟩

/-- **C2**: after each processed version of a pass, the `max_eol` accumulator
equals the maximum of the eol dates of the versions processed so far that have
an `eol` field (equivalently, of their last emitted bar's date —
`buildBars_lastDate` below shows the two coincide); it starts unset at the
beginning of the pass and is never mutated by a version lacking `eol`. -/
theorem claim_C2 :
    (∀ (em : Bool) (t : Date) (u : List (String × VRecord)) (l : List String)
      (rows : List (String × List Bar)) (st : Option Date),
      runPass em t u l none = .ok (rows, st) →
      st = foldMax none (eolDatesOf em t u l)) ∧
    (∀ (em : Bool) (t : Date) (st : Option Date) (vd : VRecord)
      (ob : Option (List Bar)) (st' : Option Date), vd.eol = none →
      processVersion em t st vd = .ok (ob, st') → st' = st) ∧
    (∀ (vd : VRecord) (bars : List Bar) (e : Date), buildBars vd = .ok bars →
      vd.eol = some e → lastDate bars = e) ∧
    (∀ (em : Bool) (t : Date) (d : Data), generate_timeline em t d =
      (runPass em t (dataUpstream d) (sortVersions (versionsOf d)) none).map
        Prod.fst) := by
  refine ⟨fun em t u l rows st h => runPass_state h, ?_,
    fun vd bars e h he => buildBars_lastDate h he, fun em t d => rfl⟩
  intro em t st vd ob st' heo h
  rcases processVersion_state h with ⟨-, -, rfl⟩ |
    ⟨-, bars, -, ⟨e, he, -, -⟩ | ⟨-, m, -, -, rfl⟩⟩
  · rfl
  · rw [heo] at he
    exact absurd he (by simp)
  · rfl

/-- Witness for C2: running the EOL-inclusive pass over the two-version
example leaves `max_eol = 2025-06-01`, the fold of the processed eol dates. -/
theorem claim_C2_witness :
    runPass true 0 (dataUpstream exData) ["3.9", "3.10"] none =
      .ok ([("3.9", exBars39), ("3.10", exBars310)], some 20250601) ∧
    (some 20250601 : Option Date) =
      foldMax none (eolDatesOf true 0 (dataUpstream exData) ["3.9", "3.10"]) :=
  ⟨rfl, claim_C2.1 true 0 (dataUpstream exData) ["3.9", "3.10"]
    [("3.9", exBars39), ("3.10", exBars310)] (some 20250601) rfl⟩

/-- **C3 fails as stated**: with versions 3.9 (eol 2025-06-01) and 3.10 (no
eol), an earlier lower-versioned EOL'd release exists in the input, yet in
current-only mode invoked on 2025-06-02 the pass aborts with the
`AssertionError` — the stated precondition does not suffice in both render
modes. -/
theorem claim_C3_counterexample :
    lookupVersion (dataUpstream exData) "3.9" = some exRec39 ∧
    exRec39.eol = some 20250601 ∧
    lookupVersion (dataUpstream exData) "3.10" = some exRec310 ∧
    exRec310.eol = none ∧
    keyLt (version_key "3.9") (version_key "3.10") = true ∧
    generate_timeline false 20250602 exData = .error .assertionError :=
  ⟨rfl, rfl, rfl, rfl, rfl, rfl⟩

/-- **C3 (amended)**: every successfully processed version lacking `eol`
receives a terminal `("future", max_eol)` bar with `max_eol` set at that
point; and the fatal assertion branch is unreachable provided every version
lacking `eol` is preceded in iteration order by a release with an `eol` field
*that the pass does not skip* (in EOL-inclusive mode any earlier EOL'd release
qualifies; in current-only mode it must additionally have `eol > today`). -/
theorem claim_C3_amended :
    (∀ (em : Bool) (t : Date) (st : Option Date) (vd : VRecord)
      (bars : List Bar) (st' : Option Date), vd.eol = none →
      processVersion em t st vd = .ok (some bars, st') →
      ∃ m, st = some m ∧ st' = some m ∧ bars.getLast? = some ("future", m)) ∧
    (∀ (em : Bool) (t : Date) (u : List (String × VRecord)) (l : List String),
      (∀ l₁ v l₂, l = l₁ ++ v :: l₂ → ∀ vd, lookupVersion u v = some vd →
        vd.eol = none →
        ∃ w ∈ l₁, ∃ wd, lookupVersion u w = some wd ∧
          wd.eol.isSome = true ∧ shouldSkip em t wd = false) →
      runPass em t u l none ≠ .error .assertionError) := by
  constructor
  · intro em t st vd bars st' heo h
    rcases processVersion_state h with ⟨-, hob, -⟩ |
      ⟨-, bars', hb, ⟨e, he, -, -⟩ | ⟨-, m, hstm, hob, rfl⟩⟩
    · exact absurd hob (by simp)
    · rw [heo] at he
      exact absurd he (by simp)
    · have hbb : bars = bars' ++ [("future", m)] := Option.some.inj hob
      refine ⟨m, hstm, hstm, ?_⟩
      rw [hbb]
      exact List.getLast?_concat _
  · intro em t u l hyp
    apply runPass_no_assert
    intro l₁ v l₂ hsplit vd hlv heo
    exact Or.inr (hyp l₁ v l₂ hsplit vd hlv heo)

/-- Witness for the amended C3 at a concrete input: 3.10 (no eol), processed
with `max_eol = 2025-06-01`, gets the terminal future bar at that date. -/
theorem claim_C3_witness :
    exRec310.eol = none ∧
    processVersion true 0 (some 20250601) exRec310 =
      .ok (some exBars310, some 20250601) ∧
    (∃ m, (some 20250601 : Option Date) = some m ∧
      (some 20250601 : Option Date) = some m ∧
      exBars310.getLast? = some ("future", m)) :=
  ⟨rfl, rfl, claim_C3_amended.1 true 0 (some 20250601) exRec310 exBars310
    (some 20250601) rfl rfl⟩

/-- **C4**: in current-only mode, a version whose upstream record has an eol
date on or before today contributes no entry and no printed row to the output
of a successful pass; in EOL-inclusive mode the same version, when iterated,
is kept and contributes a nonempty block of rows. -/
theorem claim_C4 :
    (∀ (t : Date) (u : List (String × VRecord)) (l : List String)
      (rows : List (String × List Bar)) (st : Option Date) (v : String)
      (vd : VRecord) (e : Date),
      runPass false t u l none = .ok (rows, st) → lookupVersion u v = some vd →
      vd.eol = some e → e ≤ t →
      (∀ p ∈ rows, p.1 ≠ v) ∧
      (∀ r ∈ (rows.map fun p => print_row p.1 p.2).flatten, r.1 ≠ v)) ∧
    (∀ (t : Date) (u : List (String × VRecord)) (l : List String)
      (rows : List (String × List Bar)) (st : Option Date) (v : String)
      (vd : VRecord) (e : Date),
      runPass true t u l none = .ok (rows, st) → v ∈ l →
      lookupVersion u v = some vd → vd.eol = some e → e ≤ t →
      ∃ bars, (v, bars) ∈ rows ∧ print_row v bars ≠ []) := by
  constructor
  · intro t u l rows st v vd e h hv he ht
    have hs : shouldSkip false t vd = true := by
      simp only [shouldSkip, he, Bool.not_false, Bool.true_and]
      exact decide_eq_true ht
    have h1 : ∀ p ∈ rows, p.1 ≠ v := runPass_skipped_absent hv hs h
    refine ⟨h1, ?_⟩
    intro r hr
    obtain ⟨s, hs2, hrs⟩ := List.mem_flatten.mp hr
    obtain ⟨p, hp, rfl⟩ := List.mem_map.mp hs2
    rw [print_row_label p.1 p.2 r hrs]
    exact h1 p hp
  · intro t u l rows st v vd e h hmem hv he ht
    have hs : shouldSkip true t vd = false := rfl
    obtain ⟨bars, hbm, hlen⟩ := runPass_kept hv hs h hmem
    refine ⟨bars, hbm, ?_⟩
    intro hnil
    have hl := print_row_length v bars
    rw [hnil] at hl
    simp only [List.length_nil] at hl
    omega

/-- Witness for C4: version 3.9 (eol 2025-06-01 ≤ today 2025-06-02) is kept in
the EOL-inclusive pass and contributes rows. -/
theorem claim_C4_witness :
    (20250601 : Nat) ≤ 20250602 ∧
    ∃ bars, ("3.9", bars) ∈ [("3.9", exBars39), ("3.10", exBars310)] ∧
      print_row "3.9" bars ≠ [] :=
  ⟨by decide, claim_C4.2 20250602 (dataUpstream exData) ["3.9", "3.10"]
    [("3.9", exBars39), ("3.10", exBars310)] (some 20250601) "3.9" exRec39
    20250601 rfl (by decide) rfl rfl (by decide)⟩

/-- **C5**: an `("eol", d)` bar is emitted iff the record has `eol = d` and
`eol ≠ last-bugfix`; when `eol = last-bugfix` the security bar is the terminal
bar; and a record with `eol` but without `last-bugfix` (milestones present)
fails with `KeyError("last-bugfix")`. -/
theorem claim_C5 :
    (∀ (vd : VRecord) (bars : List Bar), buildBars vd = .ok bars →
      ∀ d, (("eol", d) ∈ bars) ↔ (vd.eol = some d ∧ vd.eol ≠ vd.last_bugfix)) ∧
    (∀ (vd : VRecord) (bars : List Bar) (e : Date), buildBars vd = .ok bars →
      vd.eol = some e → vd.last_bugfix = some e →
      bars.getLast? = some ("security", e)) ∧
    (∀ (vd : VRecord) (a b r s e : Date), vd.alpha1 = some a →
      vd.beta1 = some b → vd.rc1 = some r → vd.final = some s →
      vd.eol = some e → vd.last_bugfix = none →
      buildBars vd = .error (.keyError "last-bugfix")) := by
  refine ⟨fun vd bars h d => buildBars_mem_eol h d, ?_,
    fun vd a b r s e ha hb hr hs he hl =>
      buildBars_eol_needs_bugfix ha hb hr hs he hl⟩
  intro vd bars e h he hlb
  obtain ⟨a, b, r, s, -, -, -, -, hc⟩ := buildBars_ok_shape h
  rcases hc with ⟨heo, rfl⟩ | ⟨e', l', heo, hlb', hc⟩
  · rw [heo] at he
    exact absurd he (by simp)
  · have hee : e' = e := by rw [heo] at he; exact Option.some.inj he
    have hle : l' = e := by rw [hlb'] at hlb; exact Option.some.inj hlb
    rcases hc with ⟨hel, rfl⟩ | ⟨-, rfl⟩
    · exact absurd (hee.trans hle.symm) hel
    · rw [hlb', hle]
      exact baseBars_getLast_security vd.dev a b r s e

/-- Witness for C5: the 3.9 record has `eol ≠ last-bugfix` and its derived
bars contain the `("eol", 2025-06-01)` bar. -/
theorem claim_C5_witness :
    buildBars exRec39 = .ok exBars39 ∧
    ((("eol", 20250601) ∈ exBars39) ↔
      (exRec39.eol = some 20250601 ∧ exRec39.eol ≠ exRec39.last_bugfix)) :=
  ⟨rfl, claim_C5.1 exRec39 exBars39 rfl 20250601⟩

/-- **C6 fails as stated**: a version present upstream whose record is missing
every required milestone but has a past eol date is silently skipped by the
current-only pass (the run succeeds with empty output) instead of raising a
fatal lookup error; only the EOL-inclusive pass aborts. -/
theorem claim_C6_counterexample :
    exRecMissing.alpha1 = none ∧ exRecMissing.eol = some 5 ∧
    generate_timeline false 10 exDataMissing = .ok [] ∧
    generate_timeline true 10 exDataMissing = .error (.keyError "alpha1") :=
  ⟨rfl, rfl, rfl, rfl⟩

/-- **C6 (amended)**: for a version present upstream with a required milestone
missing, processing aborts the run with a fatal lookup error in either render
mode, *provided the version is not skipped by the current-only skip rule*
(i.e. always in EOL-inclusive mode, and in current-only mode unless its eol
date is on or before today). -/
theorem claim_C6_amended :
    (∀ (em : Bool) (t : Date) (st : Option Date) (vd : VRecord),
      shouldSkip em t vd = false →
      (vd.alpha1 = none ∨ vd.beta1 = none ∨ vd.rc1 = none ∨ vd.final = none) →
      ∃ k, processVersion em t st vd = .error (.keyError k)) ∧
    (∀ (em : Bool) (t : Date) (u : List (String × VRecord)) (l : List String)
      (st : Option Date) (v : String) (vd : VRecord),
      v ∈ l → lookupVersion u v = some vd → shouldSkip em t vd = false →
      (vd.alpha1 = none ∨ vd.beta1 = none ∨ vd.rc1 = none ∨ vd.final = none) →
      ∃ err, runPass em t u l st = .error err) :=
  ⟨fun _ _ _ _ hs hm => processVersion_missing hs hm,
   fun _ _ _ _ st _ _ hmem hv hs hm => runPass_abort hv hs hm hmem st⟩

/-- Witness for the amended C6: the milestone-less record aborts the
EOL-inclusive pass. -/
theorem claim_C6_witness :
    shouldSkip true 10 exRecMissing = false ∧ exRecMissing.alpha1 = none ∧
    (∃ k, processVersion true 10 none exRecMissing = .error (.keyError k)) :=
  ⟨rfl, rfl, claim_C6_amended.1 true 10 none exRecMissing rfl (Or.inl rfl)⟩

/-- **C7**: versions are iterated and emitted in ascending order of their
numeric component tuple — the sort is a permutation sorted under `vKeyLe`, the
emitted labels of any successful generation are sorted under `vKeyLe`, and
concretely "3.9" < "3.10" < "3.11" numerically although "3.10" precedes "3.9"
in lexicographic string (character) order. -/
theorem claim_C7 :
    (∀ l : List String, (sortVersions l).Perm l) ∧
    (∀ l : List String, List.Sorted vKeyLe (sortVersions l)) ∧
    (∀ (em : Bool) (t : Date) (d : Data) (rows : List (String × List Bar)),
      generate_timeline em t d = .ok rows →
      List.Sorted vKeyLe (rows.map Prod.fst)) ∧
    version_key "3.9" = [3, 9] ∧ version_key "3.10" = [3, 10] ∧
    version_key "3.11" = [3, 11] ∧
    keyLt (version_key "3.9") (version_key "3.10") = true ∧
    keyLt (version_key "3.10") (version_key "3.11") = true ∧
    sortVersions ["3.10", "3.11", "3.9"] = ["3.9", "3.10", "3.11"] ∧
    List.Lex (· < ·) "3.10".toList "3.9".toList := by
  refine ⟨perm_sortVersions, sorted_sortVersions, ?_, rfl, rfl, rfl, rfl, rfl,
    rfl, by decide⟩
  intro em t d rows h
  cases hr : runPass em t (dataUpstream d) (sortVersions (versionsOf d)) none with
  | error e =>
    have h2 : generate_timeline em t d = .error e := by
      unfold generate_timeline
      rw [hr]
      rfl
    rw [h2] at h
    exact absurd h (by simp)
  | ok q =>
    obtain ⟨rows', st⟩ := q
    have h2 : generate_timeline em t d = .ok rows' := by
      unfold generate_timeline
      rw [hr]
      rfl
    rw [h2] at h
    obtain rfl : rows' = rows := Except.ok.inj h
    exact List.Pairwise.sublist (runPass_fst_sublist hr)
      (sorted_sortVersions (versionsOf d))

/-- Witness for C7: the emitted labels of the EOL-inclusive pass over the
example document are sorted by numeric version key. -/
theorem claim_C7_witness :
    generate_timeline true 0 exData =
      .ok [("3.9", exBars39), ("3.10", exBars310)] ∧
    List.Sorted vKeyLe
      (List.map Prod.fst [("3.9", exBars39), ("3.10", exBars310)]) :=
  ⟨rfl, claim_C7.2.2.1 true 0 exData [("3.9", exBars39), ("3.10", exBars310)]
    rfl⟩

/-- **C8 fails as stated**: the spec example promises a `("future",
2025-06-01)` bar for 3.10 regardless of render mode and invocation date, but
in current-only mode invoked on 2025-06-02 the run aborts with the
`AssertionError` (3.9 is skipped, so `max_eol` is never set) and emits no
bars at all. -/
theorem claim_C8_counterexample :
    generate_timeline false 20250602 exData = .error .assertionError :=
  rfl

/-- **C8 (amended)**: for the spec example (3.9 with eol 2025-06-01 and
last-bugfix 2024-01-01, then 3.10 with no eol), processing 3.9 then 3.10
yields 3.10's terminal `("future", 2025-06-01)` bar in EOL-inclusive mode at
any invocation date, and in current-only mode whenever today < 2025-06-01. -/
theorem claim_C8_amended :
    (∀ t : Date, generate_timeline true t exData =
      .ok [("3.9", exBars39), ("3.10", exBars310)]) ∧
    (∀ t : Date, t < 20250601 → generate_timeline false t exData =
      .ok [("3.9", exBars39), ("3.10", exBars310)]) ∧
    exBars310.getLast? = some ("future", 20250601) := by
  refine ⟨fun t => rfl, ?_, rfl⟩
  intro t ht
  have hs39 : shouldSkip false t exRec39 = false := by
    have h0 : shouldSkip false t exRec39 = decide (20250601 ≤ t) := rfl
    rw [h0]
    exact decide_eq_false (Nat.not_le.mpr ht)
  have hp39 : processVersion false t none exRec39 =
      .ok (some exBars39, some 20250601) := by
    rw [processVersion_eq, hs39]
    rfl
  have hp310 : processVersion false t (some 20250601) exRec310 =
      .ok (some exBars310, some 20250601) := rfl
  have hl39 : lookupVersion (dataUpstream exData) "3.9" = some exRec39 := rfl
  have hl310 : lookupVersion (dataUpstream exData) "3.10" = some exRec310 := rfl
  have hrun : runPass false t (dataUpstream exData) ["3.9", "3.10"] none =
      .ok ([("3.9", exBars39), ("3.10", exBars310)], some 20250601) := by
    rw [runPass_cons_ok hl39 hp39, runPass_cons_ok hl310 hp310]
    rfl
  have hgen : generate_timeline false t exData =
      (runPass false t (dataUpstream exData) ["3.9", "3.10"] none).map
        Prod.fst := rfl
  rw [hgen, hrun]
  rfl

/-- Witness for the amended C8 in current-only mode at an invocation date
before 3.9's eol. -/
theorem claim_C8_witness :
    (0 : Nat) < 20250601 ∧
    generate_timeline false 0 exData =
      .ok [("3.9", exBars39), ("3.10", exBars310)] :=
  ⟨by decide, claim_C8_amended.2.1 0 (by decide)⟩

/-- **C9**: in current-only mode the skip of a retired version (eol ≤ today)
happens before any milestone access: processing succeeds with no bars and an
unchanged `max_eol` even when all required milestones are missing, while the
same record makes the EOL-inclusive pass abort with a lookup error. -/
theorem claim_C9 (t : Date) (st : Option Date) (vd : VRecord) (e : Date)
    (he : vd.eol = some e) (ht : e ≤ t) :
    processVersion false t st vd = .ok (none, st) ∧
    ((vd.alpha1 = none ∨ vd.beta1 = none ∨ vd.rc1 = none ∨ vd.final = none) →
      (∃ k, processVersion true t st vd = .error (.keyError k)) ∧
      (∀ (u : List (String × VRecord)) (l : List String) (v : String),
        v ∈ l → lookupVersion u v = some vd →
        ∃ err, runPass true t u l st = .error err)) := by
  have hs : shouldSkip false t vd = true := by
    simp only [shouldSkip, he, Bool.not_false, Bool.true_and]
    exact decide_eq_true ht
  constructor
  · rw [processVersion_eq, hs, if_pos rfl]
  · intro hm
    have hsf : shouldSkip true t vd = false := rfl
    refine ⟨processVersion_missing hsf hm, ?_⟩
    intro u l v hmem hv
    exact runPass_abort hv hsf hm hmem st

/-- Witness for C9 at the milestone-less retired record. -/
theorem claim_C9_witness :
    processVersion false 10 none exRecMissing = .ok (none, none) ∧
    (∃ k, processVersion true 10 none exRecMissing = .error (.keyError k)) :=
  ⟨(claim_C9 10 none exRecMissing 5 rfl (by decide)).1,
   ((claim_C9 10 none exRecMissing 5 rfl (by decide)).2 (Or.inl rfl)).1⟩

/-- **C10**: every version processed to completion accumulates at least five
bars (the four mandatory milestone bars plus a security or future bar) and
hence at least four rows; the zero-row case of `print_row` is unreachable for
processed versions. -/
theorem claim_C10 :
    (∀ (em : Bool) (t : Date) (st : Option Date) (vd : VRecord)
      (bars : List Bar) (st' : Option Date),
      processVersion em t st vd = .ok (some bars, st') →
      5 ≤ bars.length ∧
      ∀ rl, 4 ≤ (print_row rl bars).length ∧ print_row rl bars ≠ []) ∧
    (∀ (em : Bool) (t : Date) (u : List (String × VRecord)) (l : List String)
      (st : Option Date) (rows : List (String × List Bar)) (st' : Option Date),
      runPass em t u l st = .ok (rows, st') →
      ∀ p ∈ rows, 5 ≤ p.2.length ∧ 4 ≤ (print_row p.1 p.2).length) := by
  have main : ∀ (em : Bool) (t : Date) (st : Option Date) (vd : VRecord)
      (bars : List Bar) (st' : Option Date),
      processVersion em t st vd = .ok (some bars, st') → 5 ≤ bars.length := by
    intro em t st vd bars st' h
    rcases processVersion_state h with ⟨-, hob, -⟩ |
      ⟨-, bars', hb, ⟨e, heo, hob, -⟩ | ⟨-, m, -, hob, -⟩⟩
    · exact absurd hob (by simp)
    · have hbb : bars = bars' := Option.some.inj hob
      rw [hbb]
      exact (buildBars_length hb).2 (by rw [heo]; rfl)
    · have hbb : bars = bars' ++ [("future", m)] := Option.some.inj hob
      have h4 := (buildBars_length hb).1
      rw [hbb]
      simp only [List.length_append, List.length_cons, List.length_nil]
      omega
  constructor
  · intro em t st vd bars st' h
    have h5 := main em t st vd bars st' h
    refine ⟨h5, ?_⟩
    intro rl
    have hl := print_row_length rl bars
    constructor
    · omega
    · intro hnil
      rw [hnil] at hl
      simp only [List.length_nil] at hl
      omega
  · intro em t u l st rows st' h p hp
    obtain ⟨vd, st₀, st₁, -, hpv⟩ := runPass_entries h p hp
    have h5 := main em t st₀ vd p.2 st₁ hpv
    have hl := print_row_length p.1 p.2
    exact ⟨h5, by omega⟩

/-- Witness for C10 at the processed 3.9 record: six bars, five rows. -/
theorem claim_C10_witness :
    processVersion true 0 none exRec39 = .ok (some exBars39, some 20250601) ∧
    5 ≤ exBars39.length ∧ 4 ≤ (print_row "3.9" exBars39).length ∧
    print_row "3.9" exBars39 ≠ [] := by
  have h := claim_C10.1 true 0 none exRec39 exBars39 (some 20250601) rfl
  exact ⟨rfl, h.1, (h.2 "3.9").1, (h.2 "3.9").2⟩

end Timeline
